import Mathlib

/-!
Shallow embedding of the diff and identity-resolution engine of the
code-diff-app repository (src/App.jsx): slug resolver, file matcher,
LCS engine, line differ, word differ and chunk folder, together with
proofs of the specified properties.
-/

namespace CodeDiff

/-- Kind of an edit operation produced by LCS backtracking
(JS strings "equal" / "added" / "removed"). -/
inductive OpKind where
  | equal
  | added
  | removed
deriving DecidableEq

/-- Kind of a diff line (JS strings "unchanged" / "added" / "removed"). -/
inductive LineKind where
  | unchanged
  | added
  | removed
deriving DecidableEq

/-- A word-diff segment: the JS object `{ value, type }`. -/
structure Seg where
  value : String
  type : OpKind
deriving DecidableEq

/-- An edit-operation record built by the line differ's makeOp factory. -/
structure LineOp where
  type : LineKind
  oldIdx : Option Nat
  newIdx : Option Nat
  content : String
deriving DecidableEq

/-- A line of the computed diff.  The JS objects reference their partner
directly; here `pairedWith` holds the partner's index in the diff list. -/
structure DiffLine where
  type : LineKind
  oldLine : Option Nat
  newLine : Option Nat
  content : String
  pairedWith : Option Nat
  segments : Option (List Seg)
deriving DecidableEq

/-- A chunk of consecutive diff lines (chunkifyDiff). -/
structure Chunk where
  type : LineKind
  lines : List DiffLine
deriving DecidableEq

/-- A file handed to the engine: `{ path, content, size }`. -/
structure SourceFile where
  path : String
  content : String
  size : Nat
deriving DecidableEq

/-- Kind of a matched pair (JS "modified" / "added" / "deleted"). -/
inductive PairKind where
  | modified
  | added
  | deleted
deriving DecidableEq

/-- A matched pair of files (matchedPairs). -/
structure MatchedPair where
  type : PairKind
  slug : String
  v1 : Option SourceFile
  v2 : Option SourceFile
deriving DecidableEq

/-- Models JS `String.prototype.split` with a one-character separator:
splitting the empty string gives `[""]`, and a trailing separator yields
a trailing empty piece. -/
def splitChar (sep : Char) : List Char → List (List Char)
  | [] => [[]]
  | c :: rest =>
    if c = sep then [] :: splitChar sep rest
    else
      match splitChar sep rest with
      | [] => [[c]]
      | h :: t => (c :: h) :: t

/-- Models JS `text.split('\n')` as used by calculateDiff. -/
def splitLines (s : String) : List String :=
  (splitChar '\n' s.toList).map String.mk

/-- Row `i+1` of the dynamic-programming table as a function of the
column index, given row `i` as `prev`: zero in column 0, and in column
`j+1` the source recurrence `dp[i][j] = dp[i-1][j-1] + 1` when
`oldArr[i-1] === newArr[j-1]`, else `max(dp[i-1][j], dp[i][j-1])`
(here `prev j + 1`, else `max (prev (j+1)) (thisRow j)`). -/
def lcsRow {α : Type} [DecidableEq α] (oldArr newArr : List α) (i : Nat)
    (prev : Nat → Nat) : Nat → Nat
  | 0 => 0
  | j + 1 =>
    if oldArr[i]? = newArr[j]? then prev j + 1
    else max (prev (j + 1)) (lcsRow oldArr newArr i prev j)

/-- Entry `[i][j]` of the dynamic-programming table built by
buildLCSTable, computed row by row exactly as the double loop fills it:
row 0 is all zero and row `i+1` is lcsRow over row `i`. -/
def lcsEntry {α : Type} [DecidableEq α] (oldArr newArr : List α) : Nat → Nat → Nat
  | 0 => fun _ => 0
  | i + 1 => lcsRow oldArr newArr i (lcsEntry oldArr newArr i)

lemma lcsEntry_zero_right {α : Type} [DecidableEq α] (oldArr newArr : List α) (i : Nat) :
    lcsEntry oldArr newArr i 0 = 0 := by
  cases i <;> rfl

lemma lcsEntry_succ_succ {α : Type} [DecidableEq α] (oldArr newArr : List α) (i j : Nat) :
    lcsEntry oldArr newArr (i + 1) (j + 1)
      = if oldArr[i]? = newArr[j]? then lcsEntry oldArr newArr i j + 1
        else max (lcsEntry oldArr newArr i (j + 1)) (lcsEntry oldArr newArr (i + 1) j) :=
  rfl

/-- The `(m+1) × (n+1)` table returned by buildLCSTable. -/
def buildLCSTable {α : Type} [DecidableEq α] (oldArr newArr : List α) : List (List Nat) :=
  (List.range (oldArr.length + 1)).map fun i =>
    (List.range (newArr.length + 1)).map fun j => lcsEntry oldArr newArr i j

/-- Reading `dp[i][j]` from the table. -/
def tableGet (dp : List (List Nat)) (i j : Nat) : Nat :=
  (dp.getD i []).getD j 0

/-- The while loop of backtrackLCS: walks from `(i, j)` toward `(0, 0)`
prepending (`unshift`) one operation per step onto `result`.  Every
iteration decreases `i + j` by at least one, so the loop runs at most
`i + j` times; the fuel argument counts the remaining permitted
iterations (the entry point passes `i + j`, which is always enough)
and makes the recursion structural. -/
def backtrackLCSAux {α β : Type} [DecidableEq α] [Inhabited α] (dp : List (List Nat))
    (oldArr newArr : List α) (makeOp : OpKind → Option Nat → Option Nat → α → β) :
    Nat → Nat → Nat → List β → List β
  | 0, _, _, result => result
  | fuel + 1, i, j, result =>
    if i = 0 ∧ j = 0 then result
    else if 0 < i ∧ 0 < j ∧ oldArr.getD (i - 1) default = newArr.getD (j - 1) default then
      backtrackLCSAux dp oldArr newArr makeOp fuel (i - 1) (j - 1)
        (makeOp .equal (some i) (some j) (oldArr.getD (i - 1) default) :: result)
    else if 0 < j ∧ (i = 0 ∨ tableGet dp i (j - 1) ≥ tableGet dp (i - 1) j) then
      backtrackLCSAux dp oldArr newArr makeOp fuel i (j - 1)
        (makeOp .added none (some j) (newArr.getD (j - 1) default) :: result)
    else
      backtrackLCSAux dp oldArr newArr makeOp fuel (i - 1) j
        (makeOp .removed (some i) none (oldArr.getD (i - 1) default) :: result)

/-- Shared LCS backtracking producing diff operations (backtrackLCS). -/
def backtrackLCS {α β : Type} [DecidableEq α] [Inhabited α] (dp : List (List Nat))
    (oldArr newArr : List α) (makeOp : OpKind → Option Nat → Option Nat → α → β) : List β :=
  backtrackLCSAux dp oldArr newArr makeOp (oldArr.length + newArr.length)
    oldArr.length newArr.length []

/-- Character class used to model the tokenizer regex `/(\s+|\b)/`:
whitespace, word characters (JS `\w` is `[A-Za-z0-9_]`) and everything
else. -/
def wordCharClass (c : Char) : Nat :=
  if c.isWhitespace then 0 else if c.isAlphanum || c = '_' then 1 else 2

/-- Maximal runs of same-class characters. -/
def classRuns : List Char → List (List Char)
  | [] => []
  | c :: rest =>
    match classRuns rest with
    | [] => [[c]]
    | [] :: gs => [c] :: [] :: gs
    | (d :: g) :: gs =>
      if wordCharClass c = wordCharClass d then (c :: d :: g) :: gs
      else [c] :: (d :: g) :: gs

/-- Models the word differ's tokenizer
`s.split(/(\s+|\b)/).filter(Boolean)`: splitting on whitespace runs and
on word boundaries and dropping empty pieces leaves exactly the maximal
runs of same-class characters. -/
def tokenize (s : String) : List String :=
  (classRuns s.toList).map String.mk

/-- Word-level diffing (getWordDiff). -/
def getWordDiff (oldStr newStr : String) : List Seg :=
  let oldTokens := tokenize oldStr
  let newTokens := tokenize newStr
  let dp := buildLCSTable oldTokens newTokens
  backtrackLCS dp oldTokens newTokens fun type _oi _ni value => { value := value, type := type }

/-- The makeOp factory passed by calculateDiff to backtrackLCS:
`type === 'equal' ? 'unchanged' : type` together with the indices. -/
def lineMakeOp (type : OpKind) (oldIdx newIdx : Option Nat) (content : String) : LineOp :=
  { type := match type with
      | .equal => .unchanged
      | .added => .added
      | .removed => .removed
    oldIdx := oldIdx
    newIdx := newIdx
    content := content }

/-- The diff line pushed for an unchanged op. -/
def unchangedLineOf (op : LineOp) : DiffLine :=
  { type := .unchanged, oldLine := op.oldIdx, newLine := op.newIdx, content := op.content,
    pairedWith := none, segments := none }

/-- The diff line pushed for `removed[k]` during interleaving. -/
def removedLineOf (op : LineOp) : DiffLine :=
  { type := .removed, oldLine := op.oldIdx, newLine := none, content := op.content,
    pairedWith := none, segments := none }

/-- The diff line pushed for `added[k]` during interleaving. -/
def addedLineOf (op : LineOp) : DiffLine :=
  { type := .added, oldLine := none, newLine := op.newIdx, content := op.content,
    pairedWith := none, segments := none }

/-- The interleaving loop of calculateDiff: for `k` from `0` to
`max(removed.length, added.length) - 1`, emit `removed[k]` if it exists
and then `added[k]` if it exists. -/
def interleavePairs (removed added : List LineOp) : List DiffLine :=
  (List.range (max removed.length added.length)).flatMap fun k =>
    (removed[k]?).toList.map removedLineOf ++ (added[k]?).toList.map addedLineOf

/-- The re-sequencing while loop of calculateDiff: unchanged ops pass
through; a maximal run of non-unchanged ops is split into its removed
ops and its (non-removed, hence added) ops and re-emitted by
interleavePairs.  Each step consumes at least one op, so the list's
length bounds the number of steps; the fuel argument makes the
recursion structural and the entry point passes the length. -/
def resequenceAux : Nat → List LineOp → List DiffLine
  | _, [] => []
  | 0, _ :: _ => []
  | fuel + 1, op :: rest =>
    if op.type = .unchanged then
      unchangedLineOf op :: resequenceAux fuel rest
    else
      let run := op :: rest.takeWhile fun o => ¬ o.type = .unchanged
      let rest2 := rest.dropWhile fun o => ¬ o.type = .unchanged
      interleavePairs (run.filter fun o => o.type = .removed)
          (run.filter fun o => ¬ o.type = .removed)
        ++ resequenceAux fuel rest2

/-- The re-sequencing pass over the whole op list. -/
def resequenceOps (ops : List LineOp) : List DiffLine :=
  resequenceAux ops.length ops

/-- Decides whether two adjacent diff lines form a removed/added change
pair (in either order). -/
def isChangePair (current next : DiffLine) : Prop :=
  (current.type = .removed ∧ next.type = .added) ∨
    (current.type = .added ∧ next.type = .removed)

instance (current next : DiffLine) : Decidable (isChangePair current next) := by
  unfold isChangePair
  infer_instance

/-- One step of the coalescing loop of calculateDiff: when the last
collected segment has the same kind as the incoming one, append the
incoming value onto it, else push the incoming segment. -/
def coalesceStep (acc : List Seg) (seg : Seg) : List Seg :=
  match acc.getLast? with
  | some last =>
    if last.type = seg.type then
      acc.dropLast ++ [{ value := last.value ++ seg.value, type := last.type }]
    else acc ++ [seg]
  | none => acc ++ [seg]

/-- The coalescing loop of calculateDiff: adjacent segments of the same
kind are merged by appending the new value onto the last collected
segment. -/
def coalesce (raw : List Seg) : List Seg :=
  raw.foldl coalesceStep []

/-- The word segments computed once for a change pair: the old string is
the removed line's content and the new string the added line's content. -/
def pairSegments (current next : DiffLine) : List Seg :=
  let oldStr := if current.type = .removed then current.content else next.content
  let newStr := if current.type = .added then current.content else next.content
  coalesce (getWordDiff oldStr newStr)

/-- The pairing pass of calculateDiff over adjacent positions `k`,
`k + 1`: a change pair with both sides unpaired receives mutual
pairedWith references and the shared coalesced word segments.  In the
source the freshly paired right-hand line is re-examined at the next
loop index; that check always fails because it is already paired, so
the scan advances past both lines. -/
def pairPass : Nat → List DiffLine → List DiffLine
  | _, [] => []
  | _, [a] => [a]
  | k, a :: b :: rest =>
    if isChangePair a b ∧ a.pairedWith = none ∧ b.pairedWith = none then
      let segs := pairSegments a b
      { a with pairedWith := some (k + 1), segments := some segs } ::
        { b with pairedWith := some k, segments := some segs } :: pairPass (k + 2) rest
    else
      a :: pairPass (k + 1) (b :: rest)

/-- The line differ (calculateDiff). -/
def calculateDiff (oldText newText : String) : List DiffLine :=
  let oldLines := splitLines oldText
  let newLines := splitLines newText
  let dp := buildLCSTable oldLines newLines
  let ops := backtrackLCS dp oldLines newLines lineMakeOp
  pairPass 0 (resequenceOps ops)

/-- The grouping loop of chunkifyDiff carrying the current chunk. -/
def chunkifyAux (currentChunk : Chunk) : List DiffLine → List Chunk
  | [] => [currentChunk]
  | d :: rest =>
    if d.type = currentChunk.type ∨ (¬ d.type = .unchanged ∧ ¬ currentChunk.type = .unchanged) then
      chunkifyAux { currentChunk with lines := currentChunk.lines ++ [d] } rest
    else
      currentChunk :: chunkifyAux { type := d.type, lines := [d] } rest

/-- The chunk folder (chunkifyDiff). -/
def chunkifyDiff : List DiffLine → List Chunk
  | [] => []
  | d :: rest => chunkifyAux { type := d.type, lines := [d] } rest

/-- A separator character of the slug regexes, the class `[._-]`. -/
def isSepChar (c : Char) : Bool :=
  c = '.' || c = '_' || c = '-'

lemma length_dropWhile_le {α : Type} (p : α → Bool) (l : List α) :
    (l.dropWhile p).length ≤ l.length :=
  (List.IsSuffix.sublist (List.dropWhile_suffix p)).length_le

/-- Greedy match of the trailing `(\.\d+)*` of the version regex,
returning the remainder of the input: each iteration consumes a dot and
at least one digit, stopping when that is not possible.  Each
iteration shortens the list, so its length bounds the iteration count;
the fuel argument makes the recursion structural and every call site
passes the length. -/
def matchDotDigits : Nat → List Char → List Char
  | _, [] => []
  | 0, l => l
  | fuel + 1, c :: rest =>
    if c = '.' ∧ ¬ (rest.takeWhile Char.isDigit) = [] then
      matchDotDigits fuel (rest.dropWhile Char.isDigit)
    else c :: rest

lemma matchDotDigits_length_le (fuel : Nat) (l : List Char) :
    (matchDotDigits fuel l).length ≤ l.length := by
  induction fuel generalizing l with
  | zero =>
    match l with
    | [] => rw [matchDotDigits]
    | c :: rest =>
      rw [matchDotDigits]
      simp
  | succ fuel ih =>
    match l with
    | [] => rw [matchDotDigits]
    | c :: rest =>
      rw [matchDotDigits]
      split
      · have hd := length_dropWhile_le Char.isDigit rest
        have hrec := ih (rest.dropWhile Char.isDigit)
        simp only [List.length_cons]
        omega
      · exact Nat.le_refl _

/-- The part of the version regex after the separator, `v?\d+(\.\d+)*`,
matched at the head of the input: either `v` followed by at least one
digit, or at least one digit directly (a lone `v` fails both
alternatives of `v?`). -/
def matchVersionBody (rest : List Char) : Option (List Char) :=
  match rest with
  | 'v' :: rest2 =>
    if rest2.takeWhile Char.isDigit = [] then none
    else some (matchDotDigits (rest2.dropWhile Char.isDigit).length
      (rest2.dropWhile Char.isDigit))
  | _ =>
    if rest.takeWhile Char.isDigit = [] then none
    else some (matchDotDigits (rest.dropWhile Char.isDigit).length
      (rest.dropWhile Char.isDigit))

/-- Match of the version regex `[._-]v?\d+(\.\d+)*` at the head of the
input, returning the remainder after the match if it matches. -/
def matchVersionAt : List Char → Option (List Char)
  | [] => none
  | c :: rest => if isSepChar c then matchVersionBody rest else none

lemma matchVersionBody_length_le (rest r : List Char) (h : matchVersionBody rest = some r) :
    r.length ≤ rest.length := by
  have key : ∀ l : List Char, ¬ l.takeWhile Char.isDigit = [] →
      (matchDotDigits (l.dropWhile Char.isDigit).length (l.dropWhile Char.isDigit)).length
        ≤ l.length := by
    intro l _
    have h1 := matchDotDigits_length_le (l.dropWhile Char.isDigit).length
      (l.dropWhile Char.isDigit)
    have h2 := length_dropWhile_le Char.isDigit l
    omega
  rw [matchVersionBody.eq_def] at h
  split at h
  · next rest2 =>
    split at h
    · exact absurd h (by simp)
    · next hne =>
      injection h with h
      subst h
      have := key rest2 hne
      simp only [List.length_cons]
      omega
  · split at h
    · exact absurd h (by simp)
    · next hne =>
      injection h with h
      subst h
      exact key rest hne

lemma matchVersionAt_length_lt (l r : List Char) (h : matchVersionAt l = some r) :
    r.length < l.length := by
  match l with
  | [] => exact absurd h (by simp [matchVersionAt])
  | c :: rest =>
    rw [matchVersionAt] at h
    split at h
    · have := matchVersionBody_length_le rest r h
      simp only [List.length_cons]
      omega
    · exact absurd h (by simp)

/-- Models the global replace
`.replace(/[._-]v?\d+(\.\d+)*/g, '')`: scan left to right, removing
each match and continuing after it, else keeping one character.  Each
step shortens the list (matchVersionAt_length_lt), so the length
bounds the step count; the fuel argument makes the recursion
structural and the entry point passes the length. -/
def replaceVersionRuns : Nat → List Char → List Char
  | _, [] => []
  | 0, l => l
  | fuel + 1, c :: rest =>
    match matchVersionAt (c :: rest) with
    | some r => replaceVersionRuns fuel r
    | none => c :: replaceVersionRuns fuel rest

/-- The stage words of the regex
`[._-](legacy|modern|old|new|final|latest)`, in alternation order. -/
def stageWords : List (List Char) :=
  [String.toList "legacy", String.toList "modern", String.toList "old",
    String.toList "new", String.toList "final", String.toList "latest"]

/-- Match of the stage regex at the head of the input: a separator
followed by one of the stage words. -/
def matchStageAt : List Char → Option (List Char)
  | [] => none
  | c :: rest =>
    if isSepChar c then
      match stageWords.find? (fun w => w.isPrefixOf rest) with
      | some w => some (rest.drop w.length)
      | none => none
    else none

lemma matchStageAt_length_lt (l r : List Char) (h : matchStageAt l = some r) :
    r.length < l.length := by
  match l with
  | [] => simp [matchStageAt] at h
  | c :: rest =>
    rw [matchStageAt.eq_def] at h
    by_cases hs : isSepChar c
    · simp only [hs, if_true] at h
      rcases hw : stageWords.find? (fun w => w.isPrefixOf rest) with _ | w
      · simp [hw] at h
      · rw [hw] at h
        simp only [Option.some.injEq] at h
        subst h
        simp only [List.length_cons, List.length_drop]
        omega
    · simp [hs] at h

/-- Models the global replace
`.replace(/[._-](legacy|modern|old|new|final|latest)/g, '')`, with
fuel exactly as in replaceVersionRuns (each step shortens the list by
matchStageAt_length_lt). -/
def replaceStageRuns : Nat → List Char → List Char
  | _, [] => []
  | 0, l => l
  | fuel + 1, c :: rest =>
    match matchStageAt (c :: rest) with
    | some r => replaceStageRuns fuel r
    | none => c :: replaceStageRuns fuel rest

/-- Models `.replace(/\.[^\/.]+$/, "")`: drop a final dot followed by
one or more characters none of which is a dot or a slash. -/
def stripExtension (l : List Char) : List Char :=
  let rev := l.reverse
  let ext := rev.takeWhile fun c => ¬ (c = '.' ∨ c = '/')
  let rest := rev.dropWhile fun c => ¬ (c = '.' ∨ c = '/')
  match rest with
  | '.' :: before => if ext = [] then l else before.reverse
  | _ => l

/-- Models JS `String.prototype.trim`. -/
def trimChars (l : List Char) : List Char :=
  ((l.dropWhile Char.isWhitespace).reverse.dropWhile Char.isWhitespace).reverse

/-- The slug resolver (getFileSlug): final path segment, lowercased,
version markers stripped, stage markers stripped, extension stripped,
trimmed. -/
def getFileSlug (path : String) : String :=
  let segments := splitChar '/' path.toList
  let filename := segments.getLastD []
  let lowered := filename.map Char.toLower
  let deversioned := replaceVersionRuns lowered.length lowered
  let destaged := replaceStageRuns deversioned.length deversioned
  String.mk (trimChars (stripExtension destaged))

/-- Models the `buildFileMap` reduce of matchedPairs: a JS Map in key
insertion order, each slug mapping to its files in insertion order. -/
def buildFileMap (files : List SourceFile) : List (String × List SourceFile) :=
  files.foldl
    (fun map f =>
      let slug := getFileSlug f.path
      if map.any fun e => e.1 = slug then
        map.map fun e => if e.1 = slug then (e.1, e.2 ++ [f]) else e
      else map ++ [(slug, [f])])
    []

/-- Models `map.get(slug) || []`. -/
def lookupMap (map : List (String × List SourceFile)) (slug : String) : List SourceFile :=
  match map.find? fun e => e.1 = slug with
  | some e => e.2
  | none => []

/-- Models `new Set(keys)` turned back into an array: keep the first
occurrence of each element, in order. -/
def dedupKeepFirst (l : List String) : List String :=
  l.foldl (fun acc s => if s ∈ acc then acc else acc ++ [s]) []

/-- A concrete stand-in for the comparator
`(a, b) => a.slug.localeCompare(b.slug)`.  localeCompare's order is
locale- and implementation-defined host collation, so it is not
determined by this repository's source; this model substitutes the
code-point lexicographic order on the slug strings (compared as their
character lists, the same order as `String.le`).  The two orders can
disagree on slugs containing punctuation or non-ASCII characters;
every comparison this file actually relies on (the worked example's
slugs "a", "new", "util") is between plain lowercase ASCII letters,
where all of these orders coincide. -/
def pairLE (a b : MatchedPair) : Prop :=
  a.slug.toList ≤ b.slug.toList

instance : DecidableRel pairLE := fun a b =>
  inferInstanceAs (Decidable (a.slug.toList ≤ b.slug.toList))

/-- The file matcher (the matchedPairs memo): group both sides by slug,
take the union of slugs, emit modified/deleted/added pairs using the
first file recorded per slug on each side, and sort by slug. -/
def matchedPairs (v1Files v2Files : List SourceFile) : List MatchedPair :=
  if v1Files.length = 0 ∧ v2Files.length = 0 then []
  else
    let v1Map := buildFileMap v1Files
    let v2Map := buildFileMap v2Files
    let allSlugs := dedupKeepFirst (v1Map.map Prod.fst ++ v2Map.map Prod.fst)
    let pairs := allSlugs.map fun slug =>
      let v1Matches := lookupMap v1Map slug
      let v2Matches := lookupMap v2Map slug
      if 0 < v1Matches.length ∧ 0 < v2Matches.length then
        { type := .modified, slug := slug, v1 := v1Matches.head?, v2 := v2Matches.head? }
      else if 0 < v1Matches.length then
        { type := .deleted, slug := slug, v1 := v1Matches.head?, v2 := none }
      else
        { type := .added, slug := slug, v1 := none, v2 := v2Matches.head? }
    pairs.insertionSort pairLE

/-! ## The backtracking policy, written the way the specification
words it: a walk from `(m, n)` to `(0, 0)` emitting one op per step,
with the emitted ops listed in emission order (newest base index
first), so that the returned sequence is its reverse. -/

/-- The walk of the specification: at `(i, j)`, if both indices are
positive and the current elements are equal emit an equal op and
decrement both; else if `j > 0` and (`i = 0` or
`table[i][j-1] >= table[i-1][j]`) emit an added op from `seqB[j-1]` and
decrement `j`; else emit a removed op from `seqA[i-1]` and decrement
`i`. -/
def specBacktrackWalk {α β : Type} [DecidableEq α] [Inhabited α] (dp : List (List Nat))
    (oldArr newArr : List α) (makeOp : OpKind → Option Nat → Option Nat → α → β) :
    Nat → Nat → List β
  | i, j =>
    if hZ : i = 0 ∧ j = 0 then []
    else if hEq : 0 < i ∧ 0 < j ∧ oldArr.getD (i - 1) default = newArr.getD (j - 1) default then
      makeOp .equal (some i) (some j) (oldArr.getD (i - 1) default) ::
        specBacktrackWalk dp oldArr newArr makeOp (i - 1) (j - 1)
    else if hAdd : 0 < j ∧ (i = 0 ∨ tableGet dp i (j - 1) ≥ tableGet dp (i - 1) j) then
      makeOp .added none (some j) (newArr.getD (j - 1) default) ::
        specBacktrackWalk dp oldArr newArr makeOp i (j - 1)
    else
      makeOp .removed (some i) none (oldArr.getD (i - 1) default) ::
        specBacktrackWalk dp oldArr newArr makeOp (i - 1) j
  termination_by i j => i + j
  decreasing_by
  · obtain ⟨h1, h2, _⟩ := hEq
    omega
  · obtain ⟨h1, _⟩ := hAdd
    omega
  · have hi : 0 < i := by
      by_contra hcon
      have hi0 : i = 0 := by omega
      have hj : 0 < j := by
        rcases Nat.eq_zero_or_pos j with h | h
        · exact absurd ⟨hi0, h⟩ hZ
        · exact h
      exact hAdd ⟨hj, Or.inl hi0⟩
    omega

lemma backtrackLCSAux_eq_specWalk {α β : Type} [DecidableEq α] [Inhabited α]
    (dp : List (List Nat)) (oldArr newArr : List α)
    (makeOp : OpKind → Option Nat → Option Nat → α → β) :
    ∀ (fuel i j : Nat), i + j ≤ fuel → ∀ acc,
      backtrackLCSAux dp oldArr newArr makeOp fuel i j acc
        = (specBacktrackWalk dp oldArr newArr makeOp i j).reverse ++ acc := by
  intro fuel
  induction fuel with
  | zero =>
    intro i j h acc
    have hi : i = 0 := by omega
    have hj : j = 0 := by omega
    subst hi hj
    rw [backtrackLCSAux, specBacktrackWalk]
    simp
  | succ fuel ih =>
    intro i j h acc
    rw [backtrackLCSAux, specBacktrackWalk]
    by_cases hZ : i = 0 ∧ j = 0
    · rw [if_pos hZ, dif_pos hZ]
      simp
    · rw [if_neg hZ, dif_neg hZ]
      by_cases hEq : 0 < i ∧ 0 < j ∧ oldArr.getD (i - 1) default = newArr.getD (j - 1) default
      · rw [if_pos hEq, dif_pos hEq,
          ih (i - 1) (j - 1) (by obtain ⟨h1, h2, _⟩ := hEq; omega)]
        simp
      · rw [if_neg hEq, dif_neg hEq]
        by_cases hAdd : 0 < j ∧ (i = 0 ∨ tableGet dp i (j - 1) ≥ tableGet dp (i - 1) j)
        · rw [if_pos hAdd, dif_pos hAdd,
            ih i (j - 1) (by obtain ⟨h1, _⟩ := hAdd; omega)]
          simp
        · rw [if_neg hAdd, dif_neg hAdd]
          have hi : 0 < i := by
            by_contra hcon
            have hi0 : i = 0 := by omega
            have hj : 0 < j := by
              rcases Nat.eq_zero_or_pos j with hh | hh
              · exact absurd ⟨hi0, hh⟩ hZ
              · exact hh
            exact hAdd ⟨hj, Or.inl hi0⟩
          rw [ih (i - 1) j (by omega)]
          simp

/-- C3: backtracking policy with the fixed prefer-added tie-break.
backtrackLCS returns exactly the op sequence defined by walking from
`(m, n)` to `(0, 0)` with an equal op (both indices decrement) when
both indices are positive and the elements are equal, else an added op
from `seqB[j-1]` when `j > 0` and (`i = 0` or
`table[i][j-1] >= table[i-1][j]`), else a removed op from `seqA[i-1]`;
the ops are returned oldest base index first, i.e. the walk's emission
order reversed. -/
theorem backtrackLCS_policy {α β : Type} [DecidableEq α] [Inhabited α]
    (dp : List (List Nat)) (oldArr newArr : List α)
    (makeOp : OpKind → Option Nat → Option Nat → α → β) :
    backtrackLCS dp oldArr newArr makeOp
      = (specBacktrackWalk dp oldArr newArr makeOp oldArr.length newArr.length).reverse := by
  unfold backtrackLCS
  rw [backtrackLCSAux_eq_specWalk dp oldArr newArr makeOp
    (oldArr.length + newArr.length) oldArr.length newArr.length (Nat.le_refl _) []]
  simp

/-! ## Bounds-checked backtracking.  Every sequence access of the
source loop is replaced by an optional read that aborts the walk when
out of bounds; proving the checked walk returns `some` of the
unchecked result shows every access is in bounds. -/

/-- The else-branches of the loop body with checked reads: the added
test reads `dp[i][j-1]` and `dp[i-1][j]` only when `j > 0` and
`i ≠ 0` (the source short-circuits on `i === 0`); the removed branch
reads `oldArr[i-1]` with no guard in the source, so here it demands
`0 < i` and an in-range read. -/
def backtrackCheckedTail {α β : Type} (dp : List (List Nat)) (oldArr newArr : List α)
    (makeOp : OpKind → Option Nat → Option Nat → α → β) (i j : Nat) :
    Option (β × Nat × Nat) :=
  if 0 < j then
    if i = 0 then
      (newArr[j - 1]?).map fun y => (makeOp .added none (some j) y, i, j - 1)
    else
      ((dp[i]?).bind fun row => row[j - 1]?).bind fun u =>
        ((dp[i - 1]?).bind fun row => row[j]?).bind fun v =>
          if u ≥ v then
            (newArr[j - 1]?).map fun y => (makeOp .added none (some j) y, i, j - 1)
          else
            (oldArr[i - 1]?).map fun x => (makeOp .removed (some i) none x, i - 1, j)
  else
    if i = 0 then none
    else (oldArr[i - 1]?).map fun x => (makeOp .removed (some i) none x, i - 1, j)

/-- One checked step of the walk at `(i, j)`: the emitted op and the
next indices, or none on any out-of-bounds read.  The equality test
reads `oldArr[i-1]` and `newArr[j-1]` only after `i > 0 && j > 0`. -/
def backtrackCheckedStep {α β : Type} [DecidableEq α] (dp : List (List Nat))
    (oldArr newArr : List α) (makeOp : OpKind → Option Nat → Option Nat → α → β)
    (i j : Nat) : Option (β × Nat × Nat) :=
  if 0 < i ∧ 0 < j then
    (oldArr[i - 1]?).bind fun x =>
      (newArr[j - 1]?).bind fun y =>
        if x = y then some (makeOp .equal (some i) (some j) x, i - 1, j - 1)
        else backtrackCheckedTail dp oldArr newArr makeOp i j
  else backtrackCheckedTail dp oldArr newArr makeOp i j

lemma backtrackCheckedTail_lt {α β : Type} (dp : List (List Nat)) (oldArr newArr : List α)
    (makeOp : OpKind → Option Nat → Option Nat → α → β) (i j : Nat)
    (op : β) (i2 j2 : Nat)
    (h : backtrackCheckedTail dp oldArr newArr makeOp i j = some (op, i2, j2)) :
    i2 + j2 < i + j := by
  unfold backtrackCheckedTail at h
  split at h
  · next hj =>
    split at h
    · rcases hy : newArr[j - 1]? with _ | y <;> rw [hy] at h
      · exact absurd h (by simp)
      · simp only [Option.map_some', Option.some.injEq, Prod.mk.injEq] at h
        omega
    · next hi =>
      rcases hu : ((dp[i]?).bind fun row => row[j - 1]?) with _ | u <;> rw [hu] at h
      · exact absurd h (by simp)
      · rcases hv : ((dp[i - 1]?).bind fun row => row[j]?) with _ | v <;> rw [hv] at h
        · exact absurd h (by simp)
        · simp only [Option.some_bind] at h
          split at h
          · rcases hy : newArr[j - 1]? with _ | y <;> rw [hy] at h
            · exact absurd h (by simp)
            · simp only [Option.map_some', Option.some.injEq, Prod.mk.injEq] at h
              omega
          · rcases hx : oldArr[i - 1]? with _ | x <;> rw [hx] at h
            · exact absurd h (by simp)
            · simp only [Option.map_some', Option.some.injEq, Prod.mk.injEq] at h
              omega
  · next hj =>
    split at h
    · exact absurd h (by simp)
    · next hi =>
      rcases hx : oldArr[i - 1]? with _ | x <;> rw [hx] at h
      · exact absurd h (by simp)
      · simp only [Option.map_some', Option.some.injEq, Prod.mk.injEq] at h
        omega

lemma backtrackCheckedStep_lt {α β : Type} [DecidableEq α] (dp : List (List Nat))
    (oldArr newArr : List α) (makeOp : OpKind → Option Nat → Option Nat → α → β)
    (i j : Nat) (op : β) (i2 j2 : Nat)
    (h : backtrackCheckedStep dp oldArr newArr makeOp i j = some (op, i2, j2)) :
    i2 + j2 < i + j := by
  unfold backtrackCheckedStep at h
  split at h
  · next hij =>
    rcases hx : oldArr[i - 1]? with _ | x <;> rw [hx] at h
    · exact absurd h (by simp)
    · rcases hy : newArr[j - 1]? with _ | y <;> rw [hy] at h
      · exact absurd h (by simp)
      · simp only [Option.some_bind] at h
        split at h
        · simp only [Option.some.injEq, Prod.mk.injEq] at h
          obtain ⟨h1, h2⟩ := hij
          omega
        · exact backtrackCheckedTail_lt dp oldArr newArr makeOp i j op i2 j2 h
  · exact backtrackCheckedTail_lt dp oldArr newArr makeOp i j op i2 j2 h

/-- The while loop with all accesses checked, with the same structural
fuel as backtrackLCSAux (each successful step decreases `i + j`,
backtrackCheckedStep_lt). -/
def backtrackCheckedAux {α β : Type} [DecidableEq α] (dp : List (List Nat))
    (oldArr newArr : List α) (makeOp : OpKind → Option Nat → Option Nat → α → β) :
    Nat → Nat → Nat → List β → Option (List β)
  | 0, _, _, result => some result
  | fuel + 1, i, j, result =>
    if i = 0 ∧ j = 0 then some result
    else
      match backtrackCheckedStep dp oldArr newArr makeOp i j with
      | some (op, i2, j2) =>
        backtrackCheckedAux dp oldArr newArr makeOp fuel i2 j2 (op :: result)
      | none => none

/-- Checked variant of backtrackLCS, starting at `(m, n)`. -/
def backtrackLCSChecked {α β : Type} [DecidableEq α] (dp : List (List Nat))
    (oldArr newArr : List α) (makeOp : OpKind → Option Nat → Option Nat → α → β) :
    Option (List β) :=
  backtrackCheckedAux dp oldArr newArr makeOp (oldArr.length + newArr.length)
    oldArr.length newArr.length []

lemma buildLCSTable_read {α : Type} [DecidableEq α] (a b : List α) (i j : Nat)
    (hi : i ≤ a.length) (hj : j ≤ b.length) :
    ((buildLCSTable a b)[i]?).bind (fun row => row[j]?) = some (lcsEntry a b i j) := by
  unfold buildLCSTable
  rw [List.getElem?_map, List.getElem?_range (by omega)]
  simp only [Option.map_some', Option.some_bind]
  rw [List.getElem?_map, List.getElem?_range (by omega)]
  simp

lemma tableGet_buildLCSTable {α : Type} [DecidableEq α] (a b : List α) (i j : Nat)
    (hi : i ≤ a.length) (hj : j ≤ b.length) :
    tableGet (buildLCSTable a b) i j = lcsEntry a b i j := by
  unfold tableGet buildLCSTable
  have hrow : (List.map
        (fun i => List.map (fun j => lcsEntry a b i j) (List.range (b.length + 1)))
        (List.range (a.length + 1))).getD i []
      = List.map (fun j => lcsEntry a b i j) (List.range (b.length + 1)) := by
    rw [List.getD_eq_getElem?_getD, List.getElem?_map, List.getElem?_range (by omega)]
    simp
  rw [hrow, List.getD_eq_getElem?_getD, List.getElem?_map, List.getElem?_range (by omega)]
  simp

lemma getD_of_lt {α : Type} [Inhabited α] (l : List α) (n : Nat) (h : n < l.length) :
    l[n]? = some (l.getD n default) := by
  rw [List.getD_eq_getElem?_getD, List.getElem?_eq_getElem h]
  simp

lemma backtrackCheckedAux_eq {α β : Type} [DecidableEq α] [Inhabited α]
    (a b : List α) (makeOp : OpKind → Option Nat → Option Nat → α → β) :
    ∀ (fuel i j : Nat), i + j ≤ fuel → i ≤ a.length → j ≤ b.length → ∀ acc,
      backtrackCheckedAux (buildLCSTable a b) a b makeOp fuel i j acc
        = some (backtrackLCSAux (buildLCSTable a b) a b makeOp fuel i j acc) := by
  intro fuel
  induction fuel with
  | zero =>
    intro i j h hi hj acc
    rw [backtrackCheckedAux, backtrackLCSAux]
  | succ fuel ih =>
    intro i j h hi hj acc
    rw [backtrackCheckedAux, backtrackLCSAux]
    by_cases hZ : i = 0 ∧ j = 0
    · simp [hZ]
    · rw [if_neg hZ, if_neg hZ]
      by_cases hEq : 0 < i ∧ 0 < j ∧ a.getD (i - 1) default = b.getD (j - 1) default
      · obtain ⟨hi1, hj1, hxy⟩ := hEq
        have hstep : backtrackCheckedStep (buildLCSTable a b) a b makeOp i j
            = some (makeOp .equal (some i) (some j) (a.getD (i - 1) default), i - 1, j - 1) := by
          unfold backtrackCheckedStep
          rw [if_pos ⟨hi1, hj1⟩, getD_of_lt a (i - 1) (by omega),
            getD_of_lt b (j - 1) (by omega)]
          simp only [Option.some_bind]
          rw [if_pos hxy]
        rw [hstep, if_pos ⟨hi1, hj1, hxy⟩]
        exact ih (i - 1) (j - 1) (by omega) (by omega) (by omega) _
      · rw [if_neg hEq]
        have htail : ∀ i2 j2 op,
            backtrackCheckedTail (buildLCSTable a b) a b makeOp i j = some (op, i2, j2) →
            backtrackCheckedStep (buildLCSTable a b) a b makeOp i j = some (op, i2, j2) := by
          intro i2 j2 op htl
          unfold backtrackCheckedStep
          by_cases hPos : 0 < i ∧ 0 < j
          · rw [if_pos hPos, getD_of_lt a (i - 1) (by omega), getD_of_lt b (j - 1) (by omega)]
            simp only [Option.some_bind]
            have hne : ¬ a.getD (i - 1) default = b.getD (j - 1) default := by
              intro hcon
              exact hEq ⟨hPos.1, hPos.2, hcon⟩
            rw [if_neg hne]
            exact htl
          · rw [if_neg hPos]
            exact htl
        by_cases hAdd : 0 < j ∧ (i = 0 ∨ tableGet (buildLCSTable a b) i (j - 1)
            ≥ tableGet (buildLCSTable a b) (i - 1) j)
        · obtain ⟨hj1, hor⟩ := hAdd
          have htl : backtrackCheckedTail (buildLCSTable a b) a b makeOp i j
              = some (makeOp .added none (some j) (b.getD (j - 1) default), i, j - 1) := by
            unfold backtrackCheckedTail
            rw [if_pos hj1]
            by_cases hi0 : i = 0
            · rw [if_pos hi0, getD_of_lt b (j - 1) (by omega)]
              simp [hi0]
            · have hge : tableGet (buildLCSTable a b) i (j - 1)
                  ≥ tableGet (buildLCSTable a b) (i - 1) j := by
                rcases hor with hc | hc
                · exact absurd hc hi0
                · exact hc
              rw [if_neg hi0,
                buildLCSTable_read a b i (j - 1) hi (by omega),
                buildLCSTable_read a b (i - 1) j (by omega) hj]
              simp only [Option.some_bind]
              rw [tableGet_buildLCSTable a b i (j - 1) hi (by omega),
                tableGet_buildLCSTable a b (i - 1) j (by omega) hj] at hge
              rw [if_pos hge, getD_of_lt b (j - 1) (by omega)]
              simp
          rw [htail _ _ _ htl, if_pos ⟨hj1, hor⟩]
          exact ih i (j - 1) (by omega) hi (by omega) _
        · have hi1 : 0 < i := by
            by_contra hcon
            have hi0 : i = 0 := by omega
            have hj1 : 0 < j := by
              rcases Nat.eq_zero_or_pos j with hh | hh
              · exact absurd ⟨hi0, hh⟩ hZ
              · exact hh
            exact hAdd ⟨hj1, Or.inl hi0⟩
          have htl : backtrackCheckedTail (buildLCSTable a b) a b makeOp i j
              = some (makeOp .removed (some i) none (a.getD (i - 1) default), i - 1, j) := by
            unfold backtrackCheckedTail
            by_cases hj1 : 0 < j
            · have hlt : ¬ tableGet (buildLCSTable a b) i (j - 1)
                  ≥ tableGet (buildLCSTable a b) (i - 1) j := by
                intro hcon
                exact hAdd ⟨hj1, Or.inr hcon⟩
              rw [if_pos hj1, if_neg (by omega : ¬ i = 0),
                buildLCSTable_read a b i (j - 1) hi (by omega),
                buildLCSTable_read a b (i - 1) j (by omega) hj]
              simp only [Option.some_bind]
              rw [tableGet_buildLCSTable a b i (j - 1) hi (by omega),
                tableGet_buildLCSTable a b (i - 1) j (by omega) hj] at hlt
              rw [if_neg hlt, getD_of_lt a (i - 1) (by omega)]
              simp
            · rw [if_neg hj1, if_neg (by omega : ¬ i = 0), getD_of_lt a (i - 1) (by omega)]
              simp
          rw [htail _ _ _ htl, if_neg hAdd]
          exact ih (i - 1) j (by omega) (by omega) hj _

/-- C10: totality and in-bounds accesses of the engine.  Every function
of the embedding is a total Lean function, so termination on every
input is by construction; the residual content is that the
backtracking walks used by the line differ and by the word differ
perform only in-bounds sequence accesses — in particular the removed
branch reads `oldArr[i-1]` only when `i > 0` — which is exactly the
statement that the fully access-checked walk returns `some` of the
unchecked result, for the line-level call of calculateDiff and the
word-level call of getWordDiff, on every input (including empty,
identical, disjoint and trailing-newline-only texts). -/
theorem engine_accesses_in_bounds (oldText newText oldStr newStr : String) :
    backtrackLCSChecked (buildLCSTable (splitLines oldText) (splitLines newText))
        (splitLines oldText) (splitLines newText) lineMakeOp
      = some (backtrackLCS (buildLCSTable (splitLines oldText) (splitLines newText))
        (splitLines oldText) (splitLines newText) lineMakeOp) ∧
    backtrackLCSChecked (buildLCSTable (tokenize oldStr) (tokenize newStr))
        (tokenize oldStr) (tokenize newStr)
        (fun type _oi _ni value => { value := value, type := type })
      = some (backtrackLCS (buildLCSTable (tokenize oldStr) (tokenize newStr))
        (tokenize oldStr) (tokenize newStr)
        (fun type _oi _ni value => Seg.mk value type)) := by
  constructor
  · exact backtrackCheckedAux_eq (splitLines oldText) (splitLines newText) lineMakeOp
      ((splitLines oldText).length + (splitLines newText).length)
      (splitLines oldText).length (splitLines newText).length (Nat.le_refl _)
      (Nat.le_refl _) (Nat.le_refl _) []
  · exact backtrackCheckedAux_eq (tokenize oldStr) (tokenize newStr) _
      ((tokenize oldStr).length + (tokenize newStr).length)
      (tokenize oldStr).length (tokenize newStr).length (Nat.le_refl _)
      (Nat.le_refl _) (Nat.le_refl _) []

/-! ## Edit-script soundness of the line differ. -/

lemma take_getD {α : Type} [Inhabited α] (l : List α) (i : Nat) (h1 : 0 < i)
    (h2 : i ≤ l.length) :
    l.take i = l.take (i - 1) ++ [l.getD (i - 1) default] := by
  have hi : i = (i - 1) + 1 := by omega
  nth_rewrite 1 [hi]
  rw [List.take_succ, List.getD_eq_getElem?_getD,
    List.getElem?_eq_getElem (by omega : i - 1 < l.length)]
  simp

lemma removed_branch_pos (i j : Nat) (dp : List (List Nat))
    (hZ : ¬ (i = 0 ∧ j = 0))
    (hAdd : ¬ (0 < j ∧ (i = 0 ∨ tableGet dp i (j - 1) ≥ tableGet dp (i - 1) j))) :
    0 < i := by
  by_contra hcon
  have hi0 : i = 0 := by omega
  have hj : 0 < j := by
    rcases Nat.eq_zero_or_pos j with h | h
    · exact absurd ⟨hi0, h⟩ hZ
    · exact h
  exact hAdd ⟨hj, Or.inl hi0⟩

lemma backtrackLCSAux_contents (dp : List (List Nat)) (a b : List String) :
    ∀ (fuel i j : Nat), i + j ≤ fuel → i ≤ a.length → j ≤ b.length → ∀ acc : List LineOp,
      (((backtrackLCSAux dp a b lineMakeOp fuel i j acc).filter
            fun o => ¬ o.type = LineKind.added).map fun o => o.content)
          = a.take i
            ++ ((acc.filter fun o => ¬ o.type = LineKind.added).map fun o => o.content) ∧
      (((backtrackLCSAux dp a b lineMakeOp fuel i j acc).filter
            fun o => ¬ o.type = LineKind.removed).map fun o => o.content)
          = b.take j
            ++ ((acc.filter fun o => ¬ o.type = LineKind.removed).map fun o => o.content) := by
  intro fuel
  induction fuel with
  | zero =>
    intro i j h hi hj acc
    have h0 : i = 0 := by omega
    have h1 : j = 0 := by omega
    subst h0 h1
    rw [backtrackLCSAux]
    simp
  | succ fuel ih =>
    intro i j h hi hj acc
    rw [backtrackLCSAux]
    by_cases hZ : i = 0 ∧ j = 0
    · rw [if_pos hZ]
      obtain ⟨h0, h1⟩ := hZ
      subst h0 h1
      simp
    · rw [if_neg hZ]
      by_cases hEq : 0 < i ∧ 0 < j ∧ a.getD (i - 1) default = b.getD (j - 1) default
      · rw [if_pos hEq]
        obtain ⟨hi1, hj1, hxy⟩ := hEq
        obtain ⟨ihA, ihB⟩ := ih (i - 1) (j - 1) (by omega) (by omega) (by omega)
          (lineMakeOp .equal (some i) (some j) (a.getD (i - 1) default) :: acc)
        constructor
        · rw [ihA, take_getD a i hi1 hi]
          simp [lineMakeOp, List.filter_cons]
        · rw [ihB, take_getD b j hj1 hj, hxy]
          simp [lineMakeOp, List.filter_cons]
      · rw [if_neg hEq]
        by_cases hAdd : 0 < j ∧ (i = 0 ∨ tableGet dp i (j - 1) ≥ tableGet dp (i - 1) j)
        · rw [if_pos hAdd]
          obtain ⟨hj1, _⟩ := hAdd
          obtain ⟨ihA, ihB⟩ := ih i (j - 1) (by omega) hi (by omega)
            (lineMakeOp .added none (some j) (b.getD (j - 1) default) :: acc)
          constructor
          · rw [ihA]
            simp [lineMakeOp, List.filter_cons]
          · rw [ihB, take_getD b j hj1 hj]
            simp [lineMakeOp, List.filter_cons]
        · rw [if_neg hAdd]
          have hi1 : 0 < i := removed_branch_pos i j dp hZ hAdd
          obtain ⟨ihA, ihB⟩ := ih (i - 1) j (by omega) (by omega) hj
            (lineMakeOp .removed (some i) none (a.getD (i - 1) default) :: acc)
          constructor
          · rw [ihA, take_getD a i hi1 hi]
            simp [lineMakeOp, List.filter_cons]
          · rw [ihB]
            simp [lineMakeOp, List.filter_cons]

lemma range_flatMap_read {α β : Type} (l : List α) (f : α → β) (n : Nat)
    (h : l.length ≤ n) :
    ((List.range n).flatMap fun k => ((l[k]?).toList.map f)) = l.map f := by
  have H : ∀ m : Nat, ((List.range m).flatMap fun k => ((l[k]?).toList.map f))
      = (l.take m).map f := by
    intro m
    induction m with
    | zero => simp
    | succ m ih =>
      rw [List.range_succ, List.flatMap_append, ih]
      simp [List.take_succ]
  rw [H n, List.take_of_length_le h]

lemma filter_flatMap {α β : Type} (l : List α) (f : α → List β) (p : β → Bool) :
    (l.flatMap f).filter p = l.flatMap fun x => (f x).filter p := by
  induction l with
  | nil => rfl
  | cons a l ih => simp [List.flatMap_cons, List.filter_append, ih]

lemma interleavePairs_filterA (rem add : List LineOp) :
    (((interleavePairs rem add).filter fun d => ¬ d.type = LineKind.added).map
        fun d => d.content)
      = rem.map fun o => o.content := by
  unfold interleavePairs
  rw [filter_flatMap]
  have hmap : ∀ k : Nat,
      (((rem[k]?).toList.map removedLineOf ++ (add[k]?).toList.map addedLineOf).filter
          fun d => decide (¬ d.type = LineKind.added))
        = (rem[k]?).toList.map removedLineOf := by
    intro k
    rcases rem[k]? with _ | o <;> rcases add[k]? with _ | o2 <;>
      simp [removedLineOf, addedLineOf]
  simp only [hmap]
  rw [range_flatMap_read rem removedLineOf (max rem.length add.length)
    (Nat.le_max_left _ _)]
  simp [removedLineOf]

lemma interleavePairs_filterB (rem add : List LineOp) :
    (((interleavePairs rem add).filter fun d => ¬ d.type = LineKind.removed).map
        fun d => d.content)
      = add.map fun o => o.content := by
  unfold interleavePairs
  rw [filter_flatMap]
  have hmap : ∀ k : Nat,
      (((rem[k]?).toList.map removedLineOf ++ (add[k]?).toList.map addedLineOf).filter
          fun d => decide (¬ d.type = LineKind.removed))
        = (add[k]?).toList.map addedLineOf := by
    intro k
    rcases rem[k]? with _ | o <;> rcases add[k]? with _ | o2 <;>
      simp [removedLineOf, addedLineOf]
  simp only [hmap]
  rw [range_flatMap_read add addedLineOf (max rem.length add.length)
    (Nat.le_max_right _ _)]
  simp [addedLineOf]

lemma resequenceAux_contents :
    ∀ (fuel : Nat) (ops : List LineOp), ops.length ≤ fuel →
      ((((resequenceAux fuel ops).filter fun d => ¬ d.type = LineKind.added).map
          fun d => d.content)
        = ((ops.filter fun o => ¬ o.type = LineKind.added).map fun o => o.content)) ∧
      ((((resequenceAux fuel ops).filter fun d => ¬ d.type = LineKind.removed).map
          fun d => d.content)
        = ((ops.filter fun o => ¬ o.type = LineKind.removed).map fun o => o.content)) := by
  intro fuel
  induction fuel with
  | zero =>
    intro ops h
    have h0 : ops = [] := List.length_eq_zero.mp (Nat.le_zero.mp h)
    subst h0
    rw [resequenceAux]
    simp
  | succ fuel ih =>
    intro ops h
    match ops with
    | [] =>
      rw [resequenceAux]
      simp
    | op :: rest =>
      rw [resequenceAux]
      by_cases hU : op.type = LineKind.unchanged
      · rw [if_pos hU]
        obtain ⟨ihA, ihB⟩ := ih rest (by simp at h; omega)
        simp only [decide_not] at ihA ihB
        constructor
        · simp [List.filter_cons, unchangedLineOf, hU, ihA]
        · simp [List.filter_cons, unchangedLineOf, hU, ihB]
      · rw [if_neg hU]
        have hsplit : op :: rest
            = (op :: rest.takeWhile fun o => ¬ o.type = LineKind.unchanged)
              ++ rest.dropWhile fun o => ¬ o.type = LineKind.unchanged := by
          rw [List.cons_append,
            List.takeWhile_append_dropWhile (fun o => decide (¬ o.type = LineKind.unchanged))
              rest]
        have hrest2 : (rest.dropWhile fun o => ¬ o.type = LineKind.unchanged).length
            ≤ rest.length :=
          (List.IsSuffix.sublist
            (List.dropWhile_suffix
              fun o : LineOp => decide (¬ o.type = LineKind.unchanged))).length_le
        obtain ⟨ihA, ihB⟩ := ih (rest.dropWhile fun o => ¬ o.type = LineKind.unchanged)
          (by simp at h; omega)
        have hrunmem : ∀ o ∈ (op :: rest.takeWhile fun x => ¬ x.type = LineKind.unchanged),
            ¬ o.type = LineKind.unchanged := by
          intro o ho
          rcases List.mem_cons.mp ho with h1 | h1
          · subst h1
            exact hU
          · have := List.mem_takeWhile_imp h1
            simpa using this
        constructor
        · rw [List.filter_append, List.map_append, interleavePairs_filterA, ihA]
          rw [hsplit]
          rw [List.filter_append, List.map_append]
          have hcongr : ((op :: rest.takeWhile fun x => ¬ x.type = LineKind.unchanged).filter
                fun o => o.type = LineKind.removed)
              = ((op :: rest.takeWhile fun x => ¬ x.type = LineKind.unchanged).filter
                fun o => ¬ o.type = LineKind.added) := by
            apply List.filter_congr
            intro o ho
            have hne := hrunmem o ho
            rcases htype : o.type with _ | _ | _ <;> simp [htype] at hne ⊢
          rw [hcongr]
        · rw [List.filter_append, List.map_append, interleavePairs_filterB, ihB]
          rw [hsplit]
          rw [List.filter_append, List.map_append]

lemma resequenceOps_contents (ops : List LineOp) :
    ((((resequenceOps ops).filter fun d => ¬ d.type = LineKind.added).map
        fun d => d.content)
      = ((ops.filter fun o => ¬ o.type = LineKind.added).map fun o => o.content)) ∧
    ((((resequenceOps ops).filter fun d => ¬ d.type = LineKind.removed).map
        fun d => d.content)
      = ((ops.filter fun o => ¬ o.type = LineKind.removed).map fun o => o.content)) :=
  resequenceAux_contents ops.length ops (Nat.le_refl _)

lemma resequenceAux_fuel_irrel :
    ∀ (fuel1 fuel2 : Nat) (ops : List LineOp), ops.length ≤ fuel1 → ops.length ≤ fuel2 →
      resequenceAux fuel1 ops = resequenceAux fuel2 ops := by
  intro fuel1
  induction fuel1 with
  | zero =>
    intro fuel2 ops h1 _h2
    have h0 : ops = [] := List.length_eq_zero.mp (Nat.le_zero.mp h1)
    subst h0
    cases fuel2 <;> rfl
  | succ fuel1 ih =>
    intro fuel2 ops h1 h2
    match ops with
    | [] => cases fuel2 <;> rfl
    | op :: rest =>
      match fuel2 with
      | 0 => exact absurd h2 (by simp)
      | fuel2 + 1 =>
        rw [resequenceAux, resequenceAux]
        by_cases hU : op.type = LineKind.unchanged
        · rw [if_pos hU, if_pos hU,
            ih fuel2 rest (by simp only [List.length_cons] at h1; omega)
              (by simp only [List.length_cons] at h2; omega)]
        · rw [if_neg hU, if_neg hU]
          have hle : (rest.dropWhile fun o => ¬ o.type = LineKind.unchanged).length
              ≤ rest.length :=
            (List.IsSuffix.sublist
              (List.dropWhile_suffix
                fun o : LineOp => decide (¬ o.type = LineKind.unchanged))).length_le
          exact congrArg
            (fun z => interleavePairs
                ((op :: rest.takeWhile fun o => ¬ o.type = LineKind.unchanged).filter
                  fun o => o.type = LineKind.removed)
                ((op :: rest.takeWhile fun o => ¬ o.type = LineKind.unchanged).filter
                  fun o => ¬ o.type = LineKind.removed) ++ z)
            (ih fuel2 (rest.dropWhile fun o => ¬ o.type = LineKind.unchanged)
              (by simp only [List.length_cons] at h1; omega)
              (by simp only [List.length_cons] at h2; omega))

lemma pairPass_map_typeContent :
    ∀ (n : Nat) (l : List DiffLine), l.length ≤ n → ∀ k : Nat,
      (pairPass k l).map (fun d => (d.type, d.content))
        = l.map fun d => (d.type, d.content) := by
  intro n
  induction n with
  | zero =>
    intro l h k
    have h0 : l = [] := List.length_eq_zero.mp (Nat.le_zero.mp h)
    subst h0
    rw [pairPass]
  | succ n ih =>
    intro l h k
    match l with
    | [] => rw [pairPass]
    | [a] => rw [pairPass]
    | a :: b :: rest =>
      rw [pairPass]
      split
      · simp only [List.map_cons, List.cons.injEq]
        refine ⟨trivial, trivial, ?_⟩
        exact ih rest (by simp only [List.length_cons] at h; omega) (k + 2)
      · simp only [List.map_cons, List.cons.injEq]
        refine ⟨trivial, ?_⟩
        have := ih (b :: rest) (by simp only [List.length_cons] at h ⊢; omega) (k + 1)
        simpa using this

lemma filter_map_content_congr (p : LineKind → Bool) :
    ∀ (l1 l2 : List DiffLine),
      l1.map (fun d => (d.type, d.content)) = l2.map (fun d => (d.type, d.content)) →
      ((l1.filter fun d => p d.type).map fun d => d.content)
        = (l2.filter fun d => p d.type).map fun d => d.content := by
  intro l1
  induction l1 with
  | nil =>
    intro l2 h
    match l2 with
    | [] => rfl
    | b :: l2 => exact absurd h (by simp)
  | cons a l1 ih =>
    intro l2 h
    match l2 with
    | [] => exact absurd h (by simp)
    | b :: l2 =>
      simp only [List.map_cons, List.cons.injEq, Prod.mk.injEq] at h
      obtain ⟨⟨h1, h2⟩, h3⟩ := h
      rw [List.filter_cons, List.filter_cons, h1]
      by_cases hp : p b.type
      · rw [if_pos hp, if_pos hp]
        simp only [List.map_cons, h2]
        rw [ih l2 h3]
      · rw [if_neg hp, if_neg hp]
        exact ih l2 h3

/-- C1: edit-script soundness of the line differ.  For every pair of
texts, in the sequence returned by calculateDiff the contents of the
unchanged and removed lines, in output order, are exactly the lines of
the old text, and the contents of the unchanged and added lines are
exactly the lines of the new text, so both inputs are reconstructed
exactly from the diff. -/
theorem calculateDiff_reconstructs (oldText newText : String) :
    (((calculateDiff oldText newText).filter fun d => ¬ d.type = LineKind.added).map
        fun d => d.content) = splitLines oldText ∧
    (((calculateDiff oldText newText).filter fun d => ¬ d.type = LineKind.removed).map
        fun d => d.content) = splitLines newText := by
  unfold calculateDiff
  set a := splitLines oldText with ha
  set b := splitLines newText with hb
  set ops := backtrackLCS (buildLCSTable a b) a b lineMakeOp with hops
  have hpair := pairPass_map_typeContent (resequenceOps ops).length (resequenceOps ops)
    (Nat.le_refl _) 0
  obtain ⟨hrA, hrB⟩ := resequenceOps_contents ops
  obtain ⟨hbA, hbB⟩ := backtrackLCSAux_contents (buildLCSTable a b) a b
    (a.length + b.length) a.length b.length (Nat.le_refl _) (Nat.le_refl _) (Nat.le_refl _) []
  constructor
  · have hcongr := filter_map_content_congr (fun t => decide (¬ t = LineKind.added))
      (pairPass 0 (resequenceOps ops)) (resequenceOps ops) hpair
    rw [hcongr, hrA]
    rw [backtrackLCS] at hops
    rw [hops]
    rw [hbA]
    simp
  · have hcongr := filter_map_content_congr (fun t => decide (¬ t = LineKind.removed))
      (pairPass 0 (resequenceOps ops)) (resequenceOps ops) hpair
    rw [hcongr, hrB]
    rw [backtrackLCS] at hops
    rw [hops]
    rw [hbB]
    simp

/-! ## The re-sequencing policy of the line differ. -/

lemma takeWhile_append_of_all {α : Type} (p : α → Bool) (l post : List α)
    (hl : ∀ x ∈ l, p x = true) (hpost : ∀ x, post.head? = some x → p x = false) :
    (l ++ post).takeWhile p = l ∧ (l ++ post).dropWhile p = post := by
  induction l with
  | nil =>
    match post with
    | [] => exact ⟨rfl, rfl⟩
    | x :: post' =>
      have hx := hpost x rfl
      constructor
      · simp [List.takeWhile_cons, hx]
      · simp [List.dropWhile_cons, hx]
  | cons a l ih =>
    have ha := hl a (List.mem_cons_self a l)
    obtain ⟨ih1, ih2⟩ := ih fun x hx => hl x (List.mem_cons_of_mem a hx)
    constructor
    · simp [List.takeWhile_cons, ha, ih1]
    · simp [List.dropWhile_cons, ha, ih2]

/-- C4: re-sequencing policy of the line differ.  The empty op list
yields the empty diff; an unchanged op passes straight through; and a
maximal run of consecutive non-unchanged ops (non-empty, followed by
nothing or by an unchanged op) is re-emitted index-by-index by
interleavePairs from its removed ops and its non-removed (added) ops,
collected in order. -/
theorem resequence_policy :
    (resequenceOps [] = []) ∧
    (∀ (op : LineOp) (rest : List LineOp), op.type = LineKind.unchanged →
      resequenceOps (op :: rest) = unchangedLineOf op :: resequenceOps rest) ∧
    (∀ (run post : List LineOp), ¬ run = [] →
      (∀ o ∈ run, ¬ o.type = LineKind.unchanged) →
      (∀ q, post.head? = some q → q.type = LineKind.unchanged) →
      resequenceOps (run ++ post)
        = interleavePairs (run.filter fun o => o.type = LineKind.removed)
            (run.filter fun o => ¬ o.type = LineKind.removed)
          ++ resequenceOps post) := by
  refine ⟨rfl, fun op rest hU => by
    simp only [resequenceOps, List.length_cons]
    rw [resequenceAux, if_pos hU], ?_⟩
  intro run post hne hrun hpost
  match run with
  | [] => exact absurd rfl hne
  | op :: run2 =>
    obtain ⟨htw, hdw⟩ := takeWhile_append_of_all
      (fun o => decide (¬ o.type = LineKind.unchanged)) run2 post
      (fun x hx => by simpa using hrun x (List.mem_cons_of_mem op hx))
      (fun x hx => by simp [hpost x hx])
    simp only [resequenceOps, List.cons_append, List.length_cons]
    rw [resequenceAux, if_neg (hrun op (List.mem_cons_self op run2)), htw, hdw]
    exact congrArg
      (fun z => interleavePairs
          ((op :: run2).filter fun o => o.type = LineKind.removed)
          ((op :: run2).filter fun o => ¬ o.type = LineKind.removed) ++ z)
      (resequenceAux_fuel_irrel (run2 ++ post).length post.length post
        (by simp only [List.length_append]; omega) (Nat.le_refl _))

/-! ## Chunkify invariants. -/

lemma chunkifyAux_spec :
    ∀ (rest : List DiffLine) (cur : Chunk), ¬ cur.lines = [] →
      ((cur.type = LineKind.unchanged → ∀ l ∈ cur.lines, l.type = LineKind.unchanged) ∧
        (¬ cur.type = LineKind.unchanged → ∀ l ∈ cur.lines, ¬ l.type = LineKind.unchanged)) →
      ((chunkifyAux cur rest).flatMap (fun c => c.lines) = cur.lines ++ rest) ∧
      (∀ c ∈ chunkifyAux cur rest, ¬ c.lines = []) ∧
      (∀ c ∈ chunkifyAux cur rest,
        (∀ l ∈ c.lines, l.type = LineKind.unchanged) ∨
        (∀ l ∈ c.lines, ¬ l.type = LineKind.unchanged)) := by
  intro rest
  induction rest with
  | nil =>
    intro cur hne hinv
    rw [chunkifyAux]
    refine ⟨by simp, by simpa using hne, ?_⟩
    intro c hc
    simp only [List.mem_singleton] at hc
    subst hc
    by_cases hu : c.type = LineKind.unchanged
    · exact Or.inl (hinv.1 hu)
    · exact Or.inr (hinv.2 hu)
  | cons d rest ih =>
    intro cur hne hinv
    rw [chunkifyAux]
    split
    · next hcond =>
      have hinv2 : ((cur.type = LineKind.unchanged →
            ∀ l ∈ cur.lines ++ [d], l.type = LineKind.unchanged) ∧
          (¬ cur.type = LineKind.unchanged →
            ∀ l ∈ cur.lines ++ [d], ¬ l.type = LineKind.unchanged)) := by
        constructor
        · intro hu l hl
          rcases List.mem_append.mp hl with h1 | h1
          · exact hinv.1 hu l h1
          · simp only [List.mem_singleton] at h1
            subst h1
            rcases hcond with hc | hc
            · rw [hc, hu]
            · exact absurd hu hc.2
        · intro hu l hl
          rcases List.mem_append.mp hl with h1 | h1
          · exact hinv.2 hu l h1
          · simp only [List.mem_singleton] at h1
            subst h1
            rcases hcond with hc | hc
            · rw [hc]
              exact hu
            · exact hc.1
      obtain ⟨ih1, ih2, ih3⟩ := ih { cur with lines := cur.lines ++ [d] }
        (by simp) hinv2
      refine ⟨?_, ih2, ih3⟩
      rw [ih1]
      simp
    · next hcond =>
      obtain ⟨ih1, ih2, ih3⟩ := ih { type := d.type, lines := [d] } (by simp)
        (by
          constructor
          · intro hu l hl
            simp only [List.mem_singleton] at hl
            subst hl
            exact hu
          · intro hu l hl
            simp only [List.mem_singleton] at hl
            subst hl
            exact hu)
      refine ⟨?_, ?_, ?_⟩
      · rw [List.flatMap_cons, ih1]
        simp
      · intro c hc
        rcases List.mem_cons.mp hc with h1 | h1
        · subst h1
          exact hne
        · exact ih2 c h1
      · intro c hc
        rcases List.mem_cons.mp hc with h1 | h1
        · subst h1
          by_cases hu : c.type = LineKind.unchanged
          · exact Or.inl (hinv.1 hu)
          · exact Or.inr (hinv.2 hu)
        · exact ih3 c h1

/-- C8: chunkify invariants.  For every diff-line sequence,
concatenating the lines of the chunks returned by chunkifyDiff
reproduces the input exactly once in order, every chunk has a
non-empty lines sequence, and no chunk mixes an unchanged line with a
non-unchanged line. -/
theorem chunkifyDiff_invariants (diff : List DiffLine) :
    ((chunkifyDiff diff).flatMap (fun c => c.lines) = diff) ∧
    (∀ c ∈ chunkifyDiff diff, ¬ c.lines = []) ∧
    (∀ c ∈ chunkifyDiff diff,
      (∀ l ∈ c.lines, l.type = LineKind.unchanged) ∨
      (∀ l ∈ c.lines, ¬ l.type = LineKind.unchanged)) := by
  match diff with
  | [] =>
    rw [chunkifyDiff]
    exact ⟨rfl, by simp, by simp⟩
  | d :: rest =>
    rw [chunkifyDiff]
    have hspec := chunkifyAux_spec rest { type := d.type, lines := [d] } (by simp)
      (by
        constructor
        · intro hu l hl
          simp only [List.mem_singleton] at hl
          subst hl
          exact hu
        · intro hu l hl
          simp only [List.mem_singleton] at hl
          subst hl
          exact hu)
    obtain ⟨h1, h2, h3⟩ := hspec
    exact ⟨by rw [h1]; simp, h2, h3⟩

/-! ## Worked examples. -/

/-- C5 counterexample: the claimed output — exactly one unchanged line
("foo"), one removed ("bar") and one added ("baz") — is not what
calculateDiff returns on `"foo\nbar\n"` / `"foo\nbaz\n"`: splitting on
newline keeps the empty line after the trailing newline, so the diff
has a fourth, unchanged empty line. -/
theorem calculateDiff_example_claim_false :
    ¬ (calculateDiff "foo\nbar\n" "foo\nbaz\n").map (fun d => (d.type, d.content))
      = [(LineKind.unchanged, "foo"), (LineKind.removed, "bar"),
          (LineKind.added, "baz")] := by
  decide

/-- C5 (amended): calculateDiff "foo\nbar\n" "foo\nbaz\n" yields
exactly four lines — unchanged "foo", removed "bar", added "baz", and
unchanged "" (the empty line coming from the trailing newlines) — in
that order, with the "bar" and "baz" lines mutually referencing each
other via pairedWith (indices 2 and 1) and sharing the cached word
segments. -/
theorem calculateDiff_example :
    calculateDiff "foo\nbar\n" "foo\nbaz\n" =
      [{ type := .unchanged, oldLine := some 1, newLine := some 1, content := "foo",
          pairedWith := none, segments := none },
        { type := .removed, oldLine := some 2, newLine := none, content := "bar",
          pairedWith := some 2,
          segments := some [{ value := "bar", type := .removed },
            { value := "baz", type := .added }] },
        { type := .added, oldLine := none, newLine := some 2, content := "baz",
          pairedWith := some 1,
          segments := some [{ value := "bar", type := .removed },
            { value := "baz", type := .added }] },
        { type := .unchanged, oldLine := some 3, newLine := some 3, content := "",
          pairedWith := none, segments := none }] := by
  decide

/-- C6: worked matcher example.  For base files `a_v1.js`,
`util-legacy.js` and target files `a_v2.js`, `util-modern.js`,
`new.js`, the matcher returns exactly three pairs — slug "a" modified,
slug "new" added, slug "util" modified — each slug exactly once, in
the sorted order a, new, util. -/
theorem matchedPairs_example :
    (matchedPairs
        [{ path := "a_v1.js", content := "", size := 0 },
          { path := "util-legacy.js", content := "", size := 0 }]
        [{ path := "a_v2.js", content := "", size := 0 },
          { path := "util-modern.js", content := "", size := 0 },
          { path := "new.js", content := "", size := 0 }]).map (fun p => (p.slug, p.type))
      = [("a", PairKind.modified), ("new", PairKind.added), ("util", PairKind.modified)] := by
  decide

/-- Concrete removed op used by the C4 witness. -/
def sampleRemovedOp : LineOp :=
  { type := LineKind.removed, oldIdx := some 1, newIdx := none, content := "a" }

/-- Witness for C4: the policy equations applied at a concrete
singleton removed run with empty tail. -/
theorem resequence_policy_witness :
    resequenceOps ([sampleRemovedOp] ++ [])
      = interleavePairs
          ([sampleRemovedOp].filter fun o => o.type = LineKind.removed)
          ([sampleRemovedOp].filter fun o => ¬ o.type = LineKind.removed)
        ++ resequenceOps [] :=
  resequence_policy.2.2 [sampleRemovedOp] []
    (by simp) (by decide) (fun q hq => by simp at hq)

/-- Concrete unchanged line used by the C8 witness. -/
def sampleUnchangedLine : DiffLine :=
  { type := LineKind.unchanged, oldLine := some 1, newLine := some 1, content := "x",
    pairedWith := none, segments := none }

/-- Concrete removed line used by the C8 witness. -/
def sampleRemovedLine : DiffLine :=
  { type := LineKind.removed, oldLine := some 2, newLine := none, content := "y",
    pairedWith := none, segments := none }

/-- Witness for C8: the invariants applied at a concrete two-line diff
and the membership of its first chunk discharged concretely. -/
theorem chunkifyDiff_invariants_witness :
    ((chunkifyDiff [sampleUnchangedLine, sampleRemovedLine]).flatMap (fun c => c.lines)
      = [sampleUnchangedLine, sampleRemovedLine]) ∧
    ¬ (Chunk.mk LineKind.unchanged [sampleUnchangedLine]).lines = [] :=
  ⟨(chunkifyDiff_invariants [sampleUnchangedLine, sampleRemovedLine]).1,
    (chunkifyDiff_invariants [sampleUnchangedLine, sampleRemovedLine]).2.1 _ (by decide)⟩

/-! ## Word-segment coalescing. -/

/-- Coalescing as the specification words it: adjacent segments of the
same kind are merged into one by concatenating their values. -/
def coalesceSpec : List Seg → List Seg
  | [] => []
  | [s] => [s]
  | s :: t :: rest =>
    if s.type = t.type then
      coalesceSpec ({ value := s.value ++ t.value, type := s.type } :: rest)
    else s :: coalesceSpec (t :: rest)
  termination_by l => l.length
  decreasing_by
  · simp only [List.length_cons]
    omega
  · simp only [List.length_cons]
    omega

lemma coalesceStep_ne_nil (acc : List Seg) (seg : Seg) : ¬ coalesceStep acc seg = [] := by
  unfold coalesceStep
  split
  · split <;> simp
  · simp

lemma coalesceStep_append (ys acc : List Seg) (h : ¬ acc = []) (seg : Seg) :
    coalesceStep (ys ++ acc) seg = ys ++ coalesceStep acc seg := by
  unfold coalesceStep
  rcases hlast : acc.getLast? with _ | last
  · exact absurd (List.getLast?_eq_none_iff.mp hlast) h
  · rw [List.getLast?_append, hlast]
    simp only [Option.or_some]
    split
    · rw [List.dropLast_append_of_ne_nil ys h, List.append_assoc]
    · rw [List.append_assoc]

lemma foldl_coalesceStep_append (raw : List Seg) :
    ∀ (ys acc : List Seg), ¬ acc = [] →
      List.foldl coalesceStep (ys ++ acc) raw = ys ++ List.foldl coalesceStep acc raw := by
  induction raw with
  | nil => intro ys acc _; rfl
  | cons seg raw ih =>
    intro ys acc h
    rw [List.foldl_cons, List.foldl_cons, coalesceStep_append ys acc h seg,
      ih ys (coalesceStep acc seg) (coalesceStep_ne_nil acc seg)]

lemma coalesce_eq_coalesceSpec (raw : List Seg) : coalesce raw = coalesceSpec raw := by
  have H : ∀ (n : Nat) (raw : List Seg), raw.length ≤ n → coalesce raw = coalesceSpec raw := by
    intro n
    induction n with
    | zero =>
      intro raw h
      have h0 : raw = [] := List.length_eq_zero.mp (Nat.le_zero.mp h)
      subst h0
      rw [coalesceSpec]
      rfl
    | succ n ih =>
      intro raw h
      match raw with
      | [] =>
        rw [coalesceSpec]
        rfl
      | [s] =>
        rw [coalesceSpec]
        rfl
      | s :: t :: rest =>
        rw [coalesceSpec]
        unfold coalesce
        rw [List.foldl_cons]
        have h1 : coalesceStep [] s = [s] := rfl
        rw [h1, List.foldl_cons]
        by_cases hst : s.type = t.type
        · have h2 : coalesceStep [s] t
              = [{ value := s.value ++ t.value, type := s.type }] := by
            unfold coalesceStep
            simp [hst]
          rw [h2, if_pos hst]
          have h3 : coalesce ({ value := s.value ++ t.value, type := s.type } :: rest)
              = List.foldl coalesceStep [{ value := s.value ++ t.value, type := s.type }]
                rest := by
            unfold coalesce
            rw [List.foldl_cons]
            rfl
          rw [← h3]
          exact ih _ (by simp only [List.length_cons] at h ⊢; omega)
        · have h2 : coalesceStep [s] t = [s] ++ [t] := by
            unfold coalesceStep
            simp [hst]
          rw [h2, if_neg hst,
            foldl_coalesceStep_append rest [s] [t] (by simp)]
          have h3 : coalesce (t :: rest) = List.foldl coalesceStep [t] rest := by
            unfold coalesce
            rw [List.foldl_cons]
            rfl
          rw [← h3, ih (t :: rest) (by simp only [List.length_cons] at h ⊢; omega)]
          rfl
  exact H raw.length raw (Nat.le_refl _)

lemma coalesceSpec_head_type :
    ∀ (n : Nat) (s : Seg) (rest : List Seg), rest.length ≤ n →
      ∃ v rest2, coalesceSpec (s :: rest) = { value := v, type := s.type } :: rest2 := by
  intro n
  induction n with
  | zero =>
    intro s rest h
    have h0 : rest = [] := List.length_eq_zero.mp (Nat.le_zero.mp h)
    subst h0
    exact ⟨s.value, [], by rw [coalesceSpec]⟩
  | succ n ih =>
    intro s rest h
    match rest with
    | [] => exact ⟨s.value, [], by rw [coalesceSpec]⟩
    | t :: rest2 =>
      rw [coalesceSpec]
      by_cases hst : s.type = t.type
      · rw [if_pos hst]
        exact ih { value := s.value ++ t.value, type := s.type } rest2
          (by simp only [List.length_cons] at h; omega)
      · rw [if_neg hst]
        exact ⟨s.value, coalesceSpec (t :: rest2), rfl⟩

lemma coalesceSpec_chain (raw : List Seg) :
    (coalesceSpec raw).Chain' fun u v => ¬ u.type = v.type := by
  have H : ∀ (n : Nat) (raw : List Seg), raw.length ≤ n →
      (coalesceSpec raw).Chain' fun u v => ¬ u.type = v.type := by
    intro n
    induction n with
    | zero =>
      intro raw h
      have h0 : raw = [] := List.length_eq_zero.mp (Nat.le_zero.mp h)
      subst h0
      rw [coalesceSpec]
      exact List.chain'_nil
    | succ n ih =>
      intro raw h
      match raw with
      | [] =>
        rw [coalesceSpec]
        exact List.chain'_nil
      | [s] => simp [coalesceSpec]
      | s :: t :: rest =>
        rw [coalesceSpec]
        by_cases hst : s.type = t.type
        · rw [if_pos hst]
          exact ih _ (by simp only [List.length_cons] at h ⊢; omega)
        · rw [if_neg hst]
          rw [List.chain'_cons']
          constructor
          · intro y hy
            obtain ⟨v, rest2, hsp⟩ := coalesceSpec_head_type rest.length t rest (Nat.le_refl _)
            rw [hsp] at hy
            simp only [List.head?_cons, Option.mem_def, Option.some.injEq] at hy
            subst hy
            exact hst
          · exact ih (t :: rest) (by simp only [List.length_cons] at h ⊢; omega)
  exact H raw.length raw (Nat.le_refl _)

lemma interleavePairs_segments_none (rem add : List LineOp) :
    ∀ d ∈ interleavePairs rem add, d.segments = none := by
  intro d hd
  unfold interleavePairs at hd
  rw [List.mem_flatMap] at hd
  obtain ⟨k, _, hk⟩ := hd
  rw [List.mem_append] at hk
  rcases hk with hk | hk <;> rw [List.mem_map] at hk <;> obtain ⟨op, _, hop⟩ := hk <;>
    subst hop <;> rfl

lemma resequenceAux_segments_none :
    ∀ (fuel : Nat) (ops : List LineOp), ∀ d ∈ resequenceAux fuel ops, d.segments = none := by
  intro fuel
  induction fuel with
  | zero =>
    intro ops d hd
    match ops with
    | [] => simp [resequenceAux] at hd
    | op :: rest => simp [resequenceAux] at hd
  | succ fuel ih =>
    intro ops d hd
    match ops with
    | [] => simp [resequenceAux] at hd
    | op :: rest =>
      rw [resequenceAux] at hd
      by_cases hU : op.type = LineKind.unchanged
      · rw [if_pos hU] at hd
        rcases List.mem_cons.mp hd with h1 | h1
        · subst h1
          rfl
        · exact ih rest d h1
      · rw [if_neg hU] at hd
        simp only [List.mem_append] at hd
        rcases hd with h1 | h1
        · exact interleavePairs_segments_none _ _ d h1
        · exact ih _ d h1

lemma pairPass_segments :
    ∀ (n : Nat) (l : List DiffLine), l.length ≤ n → (∀ d ∈ l, d.segments = none) →
      ∀ k : Nat, ∀ line ∈ pairPass k l, line.segments = none ∨
        ∃ oldStr newStr, line.segments = some (coalesce (getWordDiff oldStr newStr)) := by
  intro n
  induction n with
  | zero =>
    intro l h _ k line hline
    have h0 : l = [] := List.length_eq_zero.mp (Nat.le_zero.mp h)
    subst h0
    rw [pairPass] at hline
    simp at hline
  | succ n ih =>
    intro l h hnone k line hline
    match l with
    | [] =>
      rw [pairPass] at hline
      simp at hline
    | [a] =>
      rw [pairPass] at hline
      simp only [List.mem_singleton] at hline
      rw [hline]
      exact Or.inl (hnone a (List.mem_singleton.mpr rfl))
    | a :: b :: rest =>
      rw [pairPass] at hline
      split at hline
      · rcases List.mem_cons.mp hline with h1 | h1
        · subst h1
          right
          exact ⟨if a.type = .removed then a.content else b.content,
            if a.type = .added then a.content else b.content, rfl⟩
        · rcases List.mem_cons.mp h1 with h2 | h2
          · subst h2
            right
            exact ⟨if a.type = .removed then a.content else b.content,
              if a.type = .added then a.content else b.content, rfl⟩
          · exact ih rest (by simp only [List.length_cons] at h; omega)
              (fun d hd => hnone d (by simp [hd])) (k + 2) line h2
      · rcases List.mem_cons.mp hline with h1 | h1
        · subst h1
          exact Or.inl (hnone line (List.mem_cons_self line (b :: rest)))
        · exact ih (b :: rest) (by simp only [List.length_cons] at h ⊢; omega)
            (fun d hd => hnone d (by simp [List.mem_cons.mp hd])) (k + 1) line h1

/-- C9: word-segment coalescing.  Every cached segments sequence on a
line of calculateDiff's output has no two adjacent segments of the
same kind, and the coalescing loop agrees with the specification
recursion that merges adjacent same-kind raw segments by concatenating
their values. -/
theorem wordSegments_coalesced :
    (∀ (oldText newText : String), ∀ line ∈ calculateDiff oldText newText,
      ∀ segs, line.segments = some segs →
        segs.Chain' fun u v => ¬ u.type = v.type) ∧
    (∀ raw : List Seg, coalesce raw = coalesceSpec raw) := by
  constructor
  · intro A B line hline segs hsegs
    have hline2 : line ∈ pairPass 0 (resequenceOps (backtrackLCS
        (buildLCSTable (splitLines A) (splitLines B)) (splitLines A) (splitLines B)
        lineMakeOp)) := hline
    have hnone : ∀ d ∈ resequenceOps (backtrackLCS
        (buildLCSTable (splitLines A) (splitLines B)) (splitLines A) (splitLines B)
        lineMakeOp), d.segments = none :=
      resequenceAux_segments_none _ _
    rcases pairPass_segments (resequenceOps (backtrackLCS
        (buildLCSTable (splitLines A) (splitLines B)) (splitLines A) (splitLines B)
        lineMakeOp)).length _ (Nat.le_refl _) hnone 0 line hline2 with h | ⟨o, m, h⟩
    · rw [h] at hsegs
      cases hsegs
    · rw [h] at hsegs
      injection hsegs with hsegs
      subst hsegs
      rw [coalesce_eq_coalesceSpec]
      exact coalesceSpec_chain _
  · exact coalesce_eq_coalesceSpec

/-- Concrete paired removed line of `calculateDiff "a" "b"`, used by
the C9 witness. -/
def samplePairedLine : DiffLine :=
  { type := LineKind.removed, oldLine := some 1, newLine := none, content := "a",
    pairedWith := some 1,
    segments := some [{ value := "a", type := OpKind.removed },
      { value := "b", type := OpKind.added }] }

/-- Witness for C9: the coalescing guarantee applied to the concrete
paired line of `calculateDiff "a" "b"`. -/
theorem wordSegments_coalesced_witness :
    List.Chain' (fun u v : Seg => ¬ u.type = v.type)
      [{ value := "a", type := OpKind.removed }, { value := "b", type := OpKind.added }] :=
  wordSegments_coalesced.1 "a" "b" samplePairedLine (by decide)
    [{ value := "a", type := OpKind.removed }, { value := "b", type := OpKind.added }]
    (by decide)

/-! ## LCS table correctness. -/

lemma take_concat_getElem {α : Type} (l : List α) (i : Nat) (h : i < l.length) :
    l.take (i + 1) = l.take i ++ [l[i]] := by
  rw [List.take_succ, List.getElem?_eq_getElem h]
  rfl

lemma take_sublist_take_succ {α : Type} (l : List α) (j : Nat) :
    (l.take j).Sublist (l.take (j + 1)) := by
  have h : l.take j = (l.take (j + 1)).take j := by
    rw [List.take_take]
    rw [Nat.min_eq_left (Nat.le_succ j)]
  rw [h]
  exact List.take_sublist j (l.take (j + 1))

lemma sublist_concat_cases {α : Type} {c l : List α} {x : α} (h : c.Sublist (l ++ [x])) :
    c.Sublist l ∨ ∃ c2, c = c2 ++ [x] ∧ c2.Sublist l := by
  obtain ⟨l1, l2, hc, h1, h2⟩ := List.sublist_append_iff.mp h
  rcases List.sublist_singleton.mp h2 with h3 | h3
  · subst h3
    left
    rw [hc, List.append_nil]
    exact h1
  · subst h3
    right
    exact ⟨l1, hc, h1⟩

lemma lcsEntry_greatest {α : Type} [DecidableEq α] (a b : List α) :
    ∀ (i j : Nat), i ≤ a.length → j ≤ b.length →
      (∃ c : List α, c.Sublist (a.take i) ∧ c.Sublist (b.take j)
          ∧ c.length = lcsEntry a b i j) ∧
      (∀ c : List α, c.Sublist (a.take i) → c.Sublist (b.take j)
          → c.length ≤ lcsEntry a b i j) := by
  intro i
  induction i with
  | zero =>
    intro j _ _
    constructor
    · exact ⟨[], by simp, by simp, rfl⟩
    · intro c hca _
      have h0 : c = [] := List.sublist_nil.mp (by simpa using hca)
      subst h0
      simp [lcsEntry]
  | succ i ihi =>
    intro j
    induction j with
    | zero =>
      intro hi _
      rw [lcsEntry_zero_right]
      constructor
      · exact ⟨[], by simp, by simp, rfl⟩
      · intro c _ hcb
        have h0 : c = [] := List.sublist_nil.mp (by simpa using hcb)
        subst h0
        simp
    | succ j ihj =>
      intro hi hj
      have hia : i < a.length := by omega
      have hjb : j < b.length := by omega
      have hga : a[i]? = some a[i] := List.getElem?_eq_getElem hia
      have hgb : b[j]? = some b[j] := List.getElem?_eq_getElem hjb
      have hta : a.take (i + 1) = a.take i ++ [a[i]] := take_concat_getElem a i hia
      have htb : b.take (j + 1) = b.take j ++ [b[j]] := take_concat_getElem b j hjb
      rw [lcsEntry_succ_succ, hga, hgb]
      by_cases hxy : a[i] = b[j]
      · rw [if_pos (by rw [hxy])]
        constructor
        · obtain ⟨c, hca, hcb, hlen⟩ := (ihi j (by omega) (by omega)).1
          refine ⟨c ++ [a[i]], ?_, ?_, ?_⟩
          · rw [hta]
            exact hca.append (List.Sublist.refl _)
          · rw [htb, hxy]
            exact hcb.append (List.Sublist.refl _)
          · simp [hlen]
        · intro c hca hcb
          rw [hta] at hca
          rw [htb] at hcb
          rcases sublist_concat_cases hca with h1 | ⟨c2, hc2, h2⟩
          · rcases sublist_concat_cases hcb with h3 | ⟨c3, hc3, h4⟩
            · exact Nat.le_succ_of_le ((ihi j (by omega) (by omega)).2 c h1 h3)
            · have h5 : c3.Sublist (a.take i) := by
                have h6 : c3.Sublist c := by
                  rw [hc3]
                  exact List.sublist_append_left c3 [b[j]]
                exact h6.trans h1
              have h7 := (ihi j (by omega) (by omega)).2 c3 h5 h4
              have h8 : c.length = c3.length + 1 := by
                rw [hc3]
                simp
              omega
          · rcases sublist_concat_cases hcb with h3 | ⟨c3, hc3, h4⟩
            · have h5 : c2.Sublist (b.take j) := by
                have h6 : c2.Sublist c := by
                  rw [hc2]
                  exact List.sublist_append_left c2 [a[i]]
                exact h6.trans h3
              have h7 := (ihi j (by omega) (by omega)).2 c2 h2 h5
              have h8 : c.length = c2.length + 1 := by
                rw [hc2]
                simp
              omega
            · have h5 : c2 ++ [a[i]] = c3 ++ [b[j]] := by rw [← hc2, ← hc3]
              have hlen2 : c2.length = c3.length := by
                have h9 := congrArg List.length h5
                simp only [List.length_append, List.length_cons, List.length_nil] at h9
                omega
              have h6 : c2 = c3 := (List.append_inj h5 hlen2).1
              have h7 := (ihi j (by omega) (by omega)).2 c2 h2 (h6 ▸ h4)
              have h8 : c.length = c2.length + 1 := by
                rw [hc2]
                simp
              omega
      · rw [if_neg (by simpa using hxy)]
        constructor
        · rcases Nat.le_total (lcsEntry a b i (j + 1)) (lcsEntry a b (i + 1) j) with hle | hle
          · obtain ⟨c, hca, hcb, hlen⟩ := (ihj hi (by omega)).1
            refine ⟨c, hca, hcb.trans (take_sublist_take_succ b j), ?_⟩
            rw [hlen, Nat.max_eq_right hle]
          · obtain ⟨c, hca, hcb, hlen⟩ := (ihi (j + 1) (by omega) hj).1
            refine ⟨c, hca.trans (take_sublist_take_succ a i), hcb, ?_⟩
            rw [hlen, Nat.max_eq_left hle]
        · intro c hca hcb
          have hca2 := hca
          rw [hta] at hca2
          rcases sublist_concat_cases hca2 with h1 | ⟨c2, hc2, h2⟩
          · have h3 := (ihi (j + 1) (by omega) hj).2 c h1 hcb
            exact h3.trans (Nat.le_max_left _ _)
          · have hcb2 := hcb
            rw [htb] at hcb2
            rcases sublist_concat_cases hcb2 with h3 | ⟨c3, hc3, h4⟩
            · have h5 := (ihj hi (by omega)).2 c hca h3
              exact h5.trans (Nat.le_max_right _ _)
            · exfalso
              have h5 : c2 ++ [a[i]] = c3 ++ [b[j]] := by rw [← hc2, ← hc3]
              have h6 : some a[i] = some b[j] := by
                rw [← List.getLast?_concat c2, ← List.getLast?_concat c3, h5]
              injection h6 with h7
              exact hxy h7

/-- C2: LCS table correctness.  buildLCSTable returns an
`(m+1) × (n+1)` table whose row 0 and column 0 are zero and whose
entry `[i][j]` is the length of a longest common subsequence (a
sublist of both, compared by value) of the first `i` elements of the
old sequence and the first `j` elements of the new sequence: some
common subsequence attains the entry, and every common subsequence is
at most as long. -/
theorem buildLCSTable_correct {α : Type} [DecidableEq α] (a b : List α) :
    (buildLCSTable a b).length = a.length + 1 ∧
    (∀ i, i ≤ a.length → ((buildLCSTable a b).getD i []).length = b.length + 1) ∧
    (∀ j, j ≤ b.length → tableGet (buildLCSTable a b) 0 j = 0) ∧
    (∀ i, i ≤ a.length → tableGet (buildLCSTable a b) i 0 = 0) ∧
    (∀ i j, i ≤ a.length → j ≤ b.length →
      (∃ c : List α, c.Sublist (a.take i) ∧ c.Sublist (b.take j)
          ∧ c.length = tableGet (buildLCSTable a b) i j) ∧
      (∀ c : List α, c.Sublist (a.take i) → c.Sublist (b.take j)
          → c.length ≤ tableGet (buildLCSTable a b) i j)) := by
  refine ⟨?_, ?_, ?_, ?_, ?_⟩
  · unfold buildLCSTable
    simp
  · intro i hi
    unfold buildLCSTable
    rw [List.getD_eq_getElem?_getD, List.getElem?_map, List.getElem?_range (by omega)]
    simp
  · intro j hj
    rw [tableGet_buildLCSTable a b 0 j (by omega) hj]
    rfl
  · intro i hi
    rw [tableGet_buildLCSTable a b i 0 hi (by omega)]
    exact lcsEntry_zero_right a b i
  · intro i j hi hj
    rw [tableGet_buildLCSTable a b i j hi hj]
    exact lcsEntry_greatest a b i j hi hj

/-- Witness for C2: the maximality statement applied to the concrete
table of `["x", "y"]` against `["y", "z"]` at its bottom-right entry. -/
theorem buildLCSTable_correct_witness :
    ∃ c : List String, c.Sublist ((["x", "y"] : List String).take 2)
        ∧ c.Sublist ((["y", "z"] : List String).take 2)
        ∧ c.length = tableGet (buildLCSTable ["x", "y"] ["y", "z"]) 2 2 :=
  ((buildLCSTable_correct ["x", "y"] ["y", "z"]).2.2.2.2 2 2 (by decide) (by decide)).1

end CodeDiff
